import Mathlib

/-!
Shallow embedding of the glTF primitive-loading pipeline of
`Source/CesiumRuntime/Private/CesiumGltfComponent.cpp` (cesium-unreal).

Conventions of the embedding:
* machine floats/doubles are modelled as rationals (`ℚ`); the pipeline only
  copies, compares (`min`/`max`) and truncates them, which is exact;
* index buffers are `List Nat`; unchecked `AccessorView` element access is
  modelled totally with `List.getD` and a default element;
* the `std::unordered_map` used for texture-coordinate consolidation is
  modelled as an insertion-ordered association list (the code only ever
  queries by key and inserts fresh keys, so the bucket order is irrelevant);
* fallible conversions return `Option`.
-/

namespace CesiumGltfCpp

/-- A single-precision 3-vector (`TMeshVector3`), coordinates as rationals. -/
structure Vec3 where
  x : ℚ
  y : ℚ
  z : ℚ
deriving DecidableEq, Repr

instance : Inhabited Vec3 := ⟨⟨0, 0, 0⟩⟩

/-- Primitive topologies accepted by `loadPrimitive`; every other
`primitive.mode` is rejected before any geometry is built. -/
inductive PrimitiveMode where
  | triangles
  | triangleStrip
deriving DecidableEq, Repr

/-- The body of the TRIANGLE_STRIP expansion loop of `loadPrimitive`
(`for (int32 i = 0; i < indicesView.size() - 2; ++i)`): starting at strip
position `i` with `m` loop iterations left, emit one triple per iteration,
`(s[i], s[i+2], s[i+1])` when `i` is odd and `(s[i], s[i+1], s[i+2])` when
`i` is even. -/
def expandStripFrom (s : List Nat) : Nat → Nat → List Nat
  | _, 0 => []
  | i, m + 1 =>
    if i % 2 = 1 then
      s.getD i 0 :: s.getD (i + 2) 0 :: s.getD (i + 1) 0 :: expandStripFrom s (i + 1) m
    else
      s.getD i 0 :: s.getD (i + 1) 0 :: s.getD (i + 2) 0 :: expandStripFrom s (i + 1) m

/-- TRIANGLE_STRIP topology normalization: `M` strip indices expand to
`3*(M-2)` triangle-list indices. -/
def expandStrip (s : List Nat) : List Nat :=
  expandStripFrom s 0 (s.length - 2)

/-- The index buffer after topology normalization: TRIANGLES copies the
index view unchanged, TRIANGLE_STRIP expands it with the alternating rule. -/
def normalizedIndices (mode : PrimitiveMode) (idxView : List Nat) : List Nat :=
  match mode with
  | .triangles => idxView
  | .triangleStrip => expandStrip idxView

/-- `duplicateVertices = !hasNormals || (needsTangents && !hasTangents)`
(the deduplication decision of `loadPrimitive`). -/
def duplicateVertices (hasNormals needsTangents hasTangents : Bool) : Bool :=
  !hasNormals || (needsTangents && !hasTangents)

/-- Vertex-array assembly of `loadPrimitive`: with duplication, one vertex per
index occurrence, its position read from the position accessor at that index
(`vertex.Position = positionView[indices[i]]`, unchecked access modelled with
a default element); without duplication, one vertex per accessor element in
accessor order (`vertex.Position = positionView[i]`). -/
def buildVertices (dup : Bool) (positions : List Vec3) (idx : List Nat) : List Vec3 :=
  if dup then idx.map (fun j => positions.getD j default) else positions

/-- Winding reversal on the non-duplicated path
(`for (int32 i = 2; i < indices.Num(); i += 3) std::swap(indices[i-2], indices[i])`):
each complete triple `(a,b,c)` becomes `(c,b,a)`; a trailing incomplete
group is left untouched. -/
def reverseWinding : List Nat → List Nat
  | a :: b :: c :: rest => c :: b :: a :: reverseWinding rest
  | rest => rest

/-- Winding relabeling on the duplicated path, with `n` the absolute position
of the current triple's first slot
(`indices[i-2] = i; indices[i-1] = i-1; indices[i] = i-2`): the triple at
slots `(n, n+1, n+2)` receives the values `(n+2, n+1, n)`. -/
def relabelWindingAux : Nat → List Nat → List Nat
  | _, [] => []
  | _, [a] => [a]
  | _, [a, b] => [a, b]
  | n, _ :: _ :: _ :: rest => (n + 2) :: (n + 1) :: n :: relabelWindingAux (n + 3) rest

/-- Winding reversal on the duplicated path: triangle-local relabeling of the
whole index buffer starting at slot 0. -/
def relabelWinding (idx : List Nat) : List Nat :=
  relabelWindingAux 0 idx

/-- The final render index buffer of `loadPrimitive`: the normalized index
buffer with winding reversed exactly once, by relabeling on the duplicated
path and by first/last swap otherwise. -/
def renderIndices (dup : Bool) (nIdx : List Nat) : List Nat :=
  if dup then relabelWinding nIdx else reverseWinding nIdx

/-! ### Helper lemmas about the index transformations -/

theorem expandStripFrom_length (s : List Nat) :
    ∀ m i, (expandStripFrom s i m).length = 3 * m := by
  intro m
  induction m with
  | zero => intro i; simp [expandStripFrom]
  | succ m ih =>
      intro i
      by_cases h : i % 2 = 1
      · simp [expandStripFrom, h, ih (i + 1)]; ring
      · simp [expandStripFrom, h, ih (i + 1)]; ring

theorem expandStripFrom_getD (s : List Nat) :
    ∀ t m i, t < m →
      (expandStripFrom s i m).getD (3 * t) 0 = s.getD (i + t) 0 ∧
      (expandStripFrom s i m).getD (3 * t + 1) 0 =
        (if (i + t) % 2 = 1 then s.getD (i + t + 2) 0 else s.getD (i + t + 1) 0) ∧
      (expandStripFrom s i m).getD (3 * t + 2) 0 =
        (if (i + t) % 2 = 1 then s.getD (i + t + 1) 0 else s.getD (i + t + 2) 0) := by
  intro t
  induction t with
  | zero =>
      intro m i hm
      match m, hm with
      | m + 1, _ =>
        by_cases h : i % 2 = 1
        · simp [expandStripFrom, h]
        · simp [expandStripFrom, h]
  | succ t ih =>
      intro m i hm
      match m, hm with
      | m + 1, hm =>
        have ht : t < m := by omega
        have h0 : 3 * (t + 1) = 3 * t + 2 + 1 := by ring
        have h1 : 3 * (t + 1) + 1 = 3 * t + 1 + 2 + 1 := by ring
        have h2 : 3 * (t + 1) + 2 = 3 * t + 2 + 2 + 1 := by ring
        have hsum : i + 1 + t = i + (t + 1) := by ring
        have ihh := ih m (i + 1) ht
        rw [hsum] at ihh
        by_cases h : i % 2 = 1
        · simp only [expandStripFrom, h, if_true]
          refine ⟨?_, ?_, ?_⟩
          · rw [h0]; simpa using ihh.1
          · rw [h1]
            have : 3 * t + 1 + 2 + 1 = 3 * t + 1 + 3 := by ring
            rw [this]
            simpa using ihh.2.1
          · rw [h2]
            have : 3 * t + 2 + 2 + 1 = 3 * t + 2 + 3 := by ring
            rw [this]
            simpa using ihh.2.2
        · simp only [expandStripFrom, h, if_false]
          refine ⟨?_, ?_, ?_⟩
          · rw [h0]; simpa using ihh.1
          · rw [h1]
            have : 3 * t + 1 + 2 + 1 = 3 * t + 1 + 3 := by ring
            rw [this]
            simpa using ihh.2.1
          · rw [h2]
            have : 3 * t + 2 + 2 + 1 = 3 * t + 2 + 3 := by ring
            rw [this]
            simpa using ihh.2.2

theorem getD_cons_three (a b c : Nat) (l : List Nat) (n : Nat) :
    (a :: b :: c :: l).getD (n + 3) 0 = l.getD n 0 := by
  have h3 : n + 3 = n + 1 + 1 + 1 := by omega
  rw [h3, List.getD_cons_succ, List.getD_cons_succ, List.getD_cons_succ]

theorem reverseWinding_getD (t : Nat) :
    ∀ idx : List Nat, 3 * t + 2 < idx.length →
      (reverseWinding idx).getD (3 * t) 0 = idx.getD (3 * t + 2) 0 ∧
      (reverseWinding idx).getD (3 * t + 1) 0 = idx.getD (3 * t + 1) 0 ∧
      (reverseWinding idx).getD (3 * t + 2) 0 = idx.getD (3 * t) 0 := by
  induction t with
  | zero =>
      intro idx h
      match idx, h with
      | a :: b :: c :: rest, _ => simp [reverseWinding]
  | succ t ih =>
      intro idx h
      match idx, h with
      | a :: b :: c :: rest, h =>
        have h' : 3 * t + 2 < rest.length := by
          simp only [List.length_cons] at h; omega
        have ihh := ih rest h'
        have hrw : reverseWinding (a :: b :: c :: rest)
            = c :: b :: a :: reverseWinding rest := rfl
        have e0 : 3 * (t + 1) = 3 * t + 3 := by ring
        have e1 : 3 * (t + 1) + 1 = 3 * t + 1 + 3 := by ring
        have e2 : 3 * (t + 1) + 2 = 3 * t + 2 + 3 := by ring
        refine ⟨?_, ?_, ?_⟩
        · calc (reverseWinding (a :: b :: c :: rest)).getD (3 * (t + 1)) 0
              = (reverseWinding rest).getD (3 * t) 0 := by
                rw [hrw, e0]; exact getD_cons_three _ _ _ _ _
            _ = rest.getD (3 * t + 2) 0 := ihh.1
            _ = (a :: b :: c :: rest).getD (3 * (t + 1) + 2) 0 := by
                rw [e2]; exact (getD_cons_three _ _ _ _ _).symm
        · calc (reverseWinding (a :: b :: c :: rest)).getD (3 * (t + 1) + 1) 0
              = (reverseWinding rest).getD (3 * t + 1) 0 := by
                rw [hrw, e1]; exact getD_cons_three _ _ _ _ _
            _ = rest.getD (3 * t + 1) 0 := ihh.2.1
            _ = (a :: b :: c :: rest).getD (3 * (t + 1) + 1) 0 := by
                rw [e1]; exact (getD_cons_three _ _ _ _ _).symm
        · calc (reverseWinding (a :: b :: c :: rest)).getD (3 * (t + 1) + 2) 0
              = (reverseWinding rest).getD (3 * t + 2) 0 := by
                rw [hrw, e2]; exact getD_cons_three _ _ _ _ _
            _ = rest.getD (3 * t) 0 := ihh.2.2
            _ = (a :: b :: c :: rest).getD (3 * (t + 1)) 0 := by
                rw [e0]; exact (getD_cons_three _ _ _ _ _).symm

theorem relabelWindingAux_getD (t : Nat) :
    ∀ (n : Nat) (idx : List Nat), 3 * t + 2 < idx.length →
      (relabelWindingAux n idx).getD (3 * t) 0 = n + 3 * t + 2 ∧
      (relabelWindingAux n idx).getD (3 * t + 1) 0 = n + 3 * t + 1 ∧
      (relabelWindingAux n idx).getD (3 * t + 2) 0 = n + 3 * t := by
  induction t with
  | zero =>
      intro n idx h
      match idx, h with
      | a :: b :: c :: rest, _ => simp [relabelWindingAux]
  | succ t ih =>
      intro n idx h
      match idx, h with
      | a :: b :: c :: rest, h =>
        have h' : 3 * t + 2 < rest.length := by
          simp only [List.length_cons] at h; omega
        have ihh := ih (n + 3) rest h'
        have hrw : relabelWindingAux n (a :: b :: c :: rest)
            = (n + 2) :: (n + 1) :: n :: relabelWindingAux (n + 3) rest := rfl
        have e0 : 3 * (t + 1) = 3 * t + 3 := by ring
        have e1 : 3 * (t + 1) + 1 = 3 * t + 1 + 3 := by ring
        have e2 : 3 * (t + 1) + 2 = 3 * t + 2 + 3 := by ring
        refine ⟨?_, ?_, ?_⟩
        · calc (relabelWindingAux n (a :: b :: c :: rest)).getD (3 * (t + 1)) 0
              = (relabelWindingAux (n + 3) rest).getD (3 * t) 0 := by
                rw [hrw, e0]; exact getD_cons_three _ _ _ _ _
            _ = n + 3 + 3 * t + 2 := ihh.1
            _ = n + 3 * (t + 1) + 2 := by ring
        · calc (relabelWindingAux n (a :: b :: c :: rest)).getD (3 * (t + 1) + 1) 0
              = (relabelWindingAux (n + 3) rest).getD (3 * t + 1) 0 := by
                rw [hrw, e1]; exact getD_cons_three _ _ _ _ _
            _ = n + 3 + 3 * t + 1 := ihh.2.1
            _ = n + 3 * (t + 1) + 1 := by ring
        · calc (relabelWindingAux n (a :: b :: c :: rest)).getD (3 * (t + 1) + 2) 0
              = (relabelWindingAux (n + 3) rest).getD (3 * t + 2) 0 := by
                rw [hrw, e2]; exact getD_cons_three _ _ _ _ _
            _ = n + 3 + 3 * t := ihh.2.2
            _ = n + 3 * (t + 1) := by ring

theorem getD_map_of_lt (f : Nat → Vec3) (l : List Nat) :
    ∀ i, i < l.length → (l.map f).getD i default = f (l.getD i 0) := by
  induction l with
  | nil => intro i h; simp at h
  | cons a rest ih =>
      intro i h
      cases i with
      | zero => simp
      | succ j =>
          simp only [List.length_cons] at h
          simpa using ih j (by omega)

/-! ### Claim theorems: index buffers and vertex assembly -/

/-- C1: for every primitive build, `duplicateVertices` equals
`!hasNormals || (needsTangents && !hasTangents)`; when it is true the output
vertex array has exactly one vertex per index occurrence (vertex count =
index count, each vertex's position copied from the position accessor at its
index), and when it is false the vertex array is the accessor walked once in
order (vertex count = accessor count). -/
theorem dedup_decision_and_vertex_assembly
    (hasNormals needsTangents hasTangents : Bool)
    (positions : List Vec3) (nIdx : List Nat) :
    duplicateVertices hasNormals needsTangents hasTangents
      = (!hasNormals || (needsTangents && !hasTangents)) ∧
    (buildVertices true positions nIdx).length = nIdx.length ∧
    (∀ i, i < nIdx.length →
      (buildVertices true positions nIdx).getD i default
        = positions.getD (nIdx.getD i 0) default) ∧
    buildVertices false positions nIdx = positions := by
  refine ⟨rfl, by simp [buildVertices], ?_, rfl⟩
  intro i hi
  simpa [buildVertices] using
    getD_map_of_lt (fun j => positions.getD j default) nIdx i hi

theorem dedup_decision_and_vertex_assembly_witness :
    (buildVertices true [⟨1, 2, 3⟩, ⟨4, 5, 6⟩] [1, 0, 1]).getD 0 default
      = (⟨4, 5, 6⟩ : Vec3) :=
  (dedup_decision_and_vertex_assembly true false false
    [⟨1, 2, 3⟩, ⟨4, 5, 6⟩] [1, 0, 1]).2.2.1 0 (by decide)

/-- C2: winding reversal happens exactly once, as the last step on the index
buffer: on the non-duplicated path every complete normalized triple `(a,b,c)`
is emitted as `(c,b,a)`; on the duplicated path the triangle-local relabeling
emits `(3t+2, 3t+1, 3t)` for triangle `t`, and those slots hold the vertices
copied from the normalized indices `(c,b,a)` — the same reversed vertex
order. -/
theorem winding_reversed_exactly_once
    (positions : List Vec3) (nIdx : List Nat) (t : Nat)
    (h : 3 * t + 2 < nIdx.length) :
    ((renderIndices false nIdx).getD (3 * t) 0 = nIdx.getD (3 * t + 2) 0 ∧
     (renderIndices false nIdx).getD (3 * t + 1) 0 = nIdx.getD (3 * t + 1) 0 ∧
     (renderIndices false nIdx).getD (3 * t + 2) 0 = nIdx.getD (3 * t) 0) ∧
    ((renderIndices true nIdx).getD (3 * t) 0 = 3 * t + 2 ∧
     (renderIndices true nIdx).getD (3 * t + 1) 0 = 3 * t + 1 ∧
     (renderIndices true nIdx).getD (3 * t + 2) 0 = 3 * t) ∧
    ((buildVertices true positions nIdx).getD
        ((renderIndices true nIdx).getD (3 * t) 0) default
        = positions.getD (nIdx.getD (3 * t + 2) 0) default ∧
     (buildVertices true positions nIdx).getD
        ((renderIndices true nIdx).getD (3 * t + 1) 0) default
        = positions.getD (nIdx.getD (3 * t + 1) 0) default ∧
     (buildVertices true positions nIdx).getD
        ((renderIndices true nIdx).getD (3 * t + 2) 0) default
        = positions.getD (nIdx.getD (3 * t) 0) default) := by
  have hrev := reverseWinding_getD t nIdx h
  have hrel := relabelWindingAux_getD t 0 nIdx h
  have hb2 : 3 * t + 2 < nIdx.length := h
  have hb1 : 3 * t + 1 < nIdx.length := by omega
  have hb0 : 3 * t < nIdx.length := by omega
  have hi0 : (renderIndices true nIdx).getD (3 * t) 0 = 3 * t + 2 := by
    simpa [renderIndices, relabelWinding] using hrel.1
  have hi1 : (renderIndices true nIdx).getD (3 * t + 1) 0 = 3 * t + 1 := by
    simpa [renderIndices, relabelWinding] using hrel.2.1
  have hi2 : (renderIndices true nIdx).getD (3 * t + 2) 0 = 3 * t := by
    simpa [renderIndices, relabelWinding] using hrel.2.2
  refine ⟨by simpa [renderIndices] using hrev, ⟨hi0, hi1, hi2⟩, ?_, ?_, ?_⟩
  · rw [hi0]
    simpa [buildVertices] using
      getD_map_of_lt (fun j => positions.getD j default) nIdx (3 * t + 2) hb2
  · rw [hi1]
    simpa [buildVertices] using
      getD_map_of_lt (fun j => positions.getD j default) nIdx (3 * t + 1) hb1
  · rw [hi2]
    simpa [buildVertices] using
      getD_map_of_lt (fun j => positions.getD j default) nIdx (3 * t) hb0

theorem winding_reversed_exactly_once_witness :
    (renderIndices false [4, 5, 6]).getD 0 0 = 6 :=
  (winding_reversed_exactly_once [] [4, 5, 6] 0 (by decide)).1.1

/-- C3: a TRIANGLE_STRIP with `M ≥ 3` indices expands to exactly `3*(M-2)`
triangle-list indices; strip position `i` emits `(s[i], s[i+1], s[i+2])`
when `i` is even and `(s[i], s[i+2], s[i+1])` when `i` is odd. -/
theorem strip_expansion_fan_rule (s : List Nat) (M : Nat)
    (hM : s.length = M) (h3 : 3 ≤ M) :
    (expandStrip s).length = 3 * (M - 2) ∧
    ∀ i, i < M - 2 →
      (expandStrip s).getD (3 * i) 0 = s.getD i 0 ∧
      (expandStrip s).getD (3 * i + 1) 0
        = (if i % 2 = 0 then s.getD (i + 1) 0 else s.getD (i + 2) 0) ∧
      (expandStrip s).getD (3 * i + 2) 0
        = (if i % 2 = 0 then s.getD (i + 2) 0 else s.getD (i + 1) 0) := by
  subst hM
  constructor
  · simpa [expandStrip] using expandStripFrom_length s (s.length - 2) 0
  · intro i hi
    have hg := expandStripFrom_getD s i (s.length - 2) 0 hi
    simp only [Nat.zero_add] at hg
    by_cases hp : i % 2 = 1
    · have hp0 : ¬ i % 2 = 0 := by omega
      refine ⟨by simpa [expandStrip] using hg.1, ?_, ?_⟩
      · rw [if_neg hp0]
        have := hg.2.1
        rw [if_pos hp] at this
        simpa [expandStrip] using this
      · rw [if_neg hp0]
        have := hg.2.2
        rw [if_pos hp] at this
        simpa [expandStrip] using this
    · have hp0 : i % 2 = 0 := by omega
      refine ⟨by simpa [expandStrip] using hg.1, ?_, ?_⟩
      · rw [if_pos hp0]
        have := hg.2.1
        rw [if_neg hp] at this
        simpa [expandStrip] using this
      · rw [if_pos hp0]
        have := hg.2.2
        rw [if_neg hp] at this
        simpa [expandStrip] using this

theorem strip_expansion_fan_rule_witness :
    (expandStrip [5, 6, 7, 8]).length = 3 * (4 - 2) :=
  (strip_expansion_fan_rule [5, 6, 7, 8] 4 (by decide) (by decide)).1

/-! ### Collision geometry extraction -/

/-- `fillTriangles` (Chaos path of `BuildChaosTriangleMeshes`): triangle `i`
is built as `(indices[3i+1], indices[3i], indices[3i+2])` — the first two
entries of the render triple are swapped. -/
def fillTriangles (indices : List Nat) (triangleCount : Nat) :
    List (Nat × Nat × Nat) :=
  (List.range triangleCount).map
    (fun i => (indices.getD (3 * i + 1) 0, indices.getD (3 * i) 0,
               indices.getD (3 * i + 2) 0))

/-- The PhysX path (`BuildPhysXTriangleMeshes`): triangle `i` is
`(indices[3i], indices[3i+1], indices[3i+2])`, in render-buffer order. -/
def physXTriangles (indices : List Nat) (triangleCount : Nat) :
    List (Nat × Nat × Nat) :=
  (List.range triangleCount).map
    (fun i => (indices.getD (3 * i) 0, indices.getD (3 * i + 1) 0,
               indices.getD (3 * i + 2) 0))

/-- Collision cooking is attempted only when the primitive produced at least
one vertex and at least one index
(`if (StaticMeshBuildVertices.Num() != 0 && indices.Num() != 0)`). -/
def collisionMeshAttempted (vertexCount indexCount : Nat) : Bool :=
  vertexCount != 0 && indexCount != 0

/-- Output index width of the Chaos collision mesh. -/
inductive IndexWidth where
  | narrow16
  | wide32
deriving DecidableEq, Repr

/-- Chaos index-width selection
(`vertexCount < TNumericLimits<uint16>::Max()` i.e. `< 65535`). -/
def chaosTriangleIndexWidth (vertexCount : Nat) : IndexWidth :=
  if vertexCount < 65535 then .narrow16 else .wide32

theorem getD_map_range (g : Nat → Nat × Nat × Nat) (n t : Nat) (h : t < n) :
    ((List.range n).map g).getD t (0, 0, 0) = g t := by
  rw [List.getD_eq_getElem?_getD, List.getElem?_map, List.getElem?_range h]
  rfl

/-- C4 counterexample: on the Chaos path the collision triple is *not* the
render triple in order — for render indices `[0,1,2]` the cooked triangle is
`(1,0,2)`, not `(0,1,2)`. -/
theorem collision_triples_not_in_order :
    fillTriangles [0, 1, 2] 1 ≠ [(0, 1, 2)] := by decide

/-- C4 (amended): collision triples are taken from the already
winding-reversed render index buffer, but only the PhysX path passes triangle
`t` as `(indices[3t], indices[3t+1], indices[3t+2])` in order; the Chaos
path's `fillTriangles` swaps the first two entries, producing
`(indices[3t+1], indices[3t], indices[3t+2])`. -/
theorem collision_triples_from_render_indices
    (indices : List Nat) (triangleCount t : Nat) (h : t < triangleCount) :
    (physXTriangles indices triangleCount).getD t (0, 0, 0)
      = (indices.getD (3 * t) 0, indices.getD (3 * t + 1) 0,
         indices.getD (3 * t + 2) 0) ∧
    (fillTriangles indices triangleCount).getD t (0, 0, 0)
      = (indices.getD (3 * t + 1) 0, indices.getD (3 * t) 0,
         indices.getD (3 * t + 2) 0) := by
  constructor
  · exact getD_map_range _ triangleCount t h
  · exact getD_map_range _ triangleCount t h

theorem collision_triples_from_render_indices_witness :
    (physXTriangles [9, 8, 7] 1).getD 0 (0, 0, 0) = (9, 8, 7) :=
  (collision_triples_from_render_indices [9, 8, 7] 1 0 (by decide)).1

/-- C9 counterexample: a vertex count of 65535 is representable in the
16-bit index type ("fits its range"), yet the code selects the wide 32-bit
type, because the comparison is strict
(`vertexCount < TNumericLimits<uint16>::Max()`). -/
theorem index_width_boundary :
    (65535 : Nat) ≤ 65535 ∧ chaosTriangleIndexWidth 65535 = .wide32 := by
  decide

/-- C9 (amended): collision extraction is skipped exactly when the primitive
produced zero vertices or zero indices; otherwise the Chaos narrow 16-bit
index type is selected iff the vertex count is *strictly below* 65535 (the
maximum `uint16` value), the wide 32-bit type otherwise. -/
theorem collision_skip_and_index_width (vertexCount indexCount : Nat) :
    (collisionMeshAttempted vertexCount indexCount = false
       ↔ vertexCount = 0 ∨ indexCount = 0) ∧
    (chaosTriangleIndexWidth vertexCount = .narrow16 ↔ vertexCount < 65535) := by
  constructor
  · simp [collisionMeshAttempted]; tauto
  · constructor
    · intro h
      by_contra hlt
      simp [chaosTriangleIndexWidth, hlt] at h
    · intro h
      simp [chaosTriangleIndexWidth, h]

/-! ### Axis-aligned bounding box -/

/-- One step of the accumulator loop for the per-axis minimum. -/
def minStep (a p : Vec3) : Vec3 :=
  ⟨min a.x p.x, min a.y p.y, min a.z p.z⟩

/-- One step of the accumulator loop for the per-axis maximum. -/
def maxStep (a p : Vec3) : Vec3 :=
  ⟨max a.x p.x, max a.y p.y, max a.z p.z⟩

/-- `std::numeric_limits<double>::max()`, the loop's initial minimum
(`lowest()` is its negation). -/
def dblMax : ℚ := 2 ^ 1024 - 2 ^ 971

/-- The AABB computation of `loadPrimitive`: when the position accessor's
declared `min`/`max` are not both 3-component, fold the true per-axis
min/max over all positions starting from `(DBL_MAX, lowest)`; otherwise take
the declared bounds as-is, regardless of the actual positions. -/
def computeAABB (declMin declMax : List ℚ) (positions : List Vec3) :
    Vec3 × Vec3 :=
  if declMin.length ≠ 3 ∨ declMax.length ≠ 3 then
    (positions.foldl minStep ⟨dblMax, dblMax, dblMax⟩,
     positions.foldl maxStep ⟨-dblMax, -dblMax, -dblMax⟩)
  else
    (⟨declMin.getD 0 0, declMin.getD 1 0, declMin.getD 2 0⟩,
     ⟨declMax.getD 0 0, declMax.getD 1 0, declMax.getD 2 0⟩)

theorem foldl_minStep_le_init (l : List Vec3) :
    ∀ i : Vec3, (l.foldl minStep i).x ≤ i.x ∧ (l.foldl minStep i).y ≤ i.y ∧
      (l.foldl minStep i).z ≤ i.z := by
  induction l with
  | nil => intro i; simp
  | cons p rest ih =>
      intro i
      have h := ih (minStep i p)
      exact ⟨le_trans h.1 (min_le_left _ _), le_trans h.2.1 (min_le_left _ _),
        le_trans h.2.2 (min_le_left _ _)⟩

theorem foldl_maxStep_init_le (l : List Vec3) :
    ∀ i : Vec3, i.x ≤ (l.foldl maxStep i).x ∧ i.y ≤ (l.foldl maxStep i).y ∧
      i.z ≤ (l.foldl maxStep i).z := by
  induction l with
  | nil => intro i; simp
  | cons p rest ih =>
      intro i
      have h := ih (maxStep i p)
      exact ⟨le_trans (le_max_left _ _) h.1, le_trans (le_max_left _ _) h.2.1,
        le_trans (le_max_left _ _) h.2.2⟩

theorem foldl_minStep_le_mem (l : List Vec3) :
    ∀ i : Vec3, ∀ p ∈ l, (l.foldl minStep i).x ≤ p.x ∧
      (l.foldl minStep i).y ≤ p.y ∧ (l.foldl minStep i).z ≤ p.z := by
  induction l with
  | nil => intro i p hp; simp at hp
  | cons q rest ih =>
      intro i p hp
      rcases List.mem_cons.mp hp with rfl | hp
      · have h := foldl_minStep_le_init rest (minStep i p)
        exact ⟨le_trans h.1 (min_le_right _ _),
          le_trans h.2.1 (min_le_right _ _), le_trans h.2.2 (min_le_right _ _)⟩
      · simpa using ih (minStep i q) p hp

theorem foldl_maxStep_mem_le (l : List Vec3) :
    ∀ i : Vec3, ∀ p ∈ l, p.x ≤ (l.foldl maxStep i).x ∧
      p.y ≤ (l.foldl maxStep i).y ∧ p.z ≤ (l.foldl maxStep i).z := by
  induction l with
  | nil => intro i p hp; simp at hp
  | cons q rest ih =>
      intro i p hp
      rcases List.mem_cons.mp hp with rfl | hp
      · have h := foldl_maxStep_init_le rest (maxStep i p)
        exact ⟨le_trans (le_max_right _ _) h.1,
          le_trans (le_max_right _ _) h.2.1, le_trans (le_max_right _ _) h.2.2⟩
      · simpa using ih (maxStep i q) p hp

theorem foldl_minStep_attained (l : List Vec3) :
    ∀ i : Vec3,
      ((l.foldl minStep i).x = i.x ∨ ∃ p ∈ l, (l.foldl minStep i).x = p.x) ∧
      ((l.foldl minStep i).y = i.y ∨ ∃ p ∈ l, (l.foldl minStep i).y = p.y) ∧
      ((l.foldl minStep i).z = i.z ∨ ∃ p ∈ l, (l.foldl minStep i).z = p.z) := by
  induction l with
  | nil => intro i; simp
  | cons q rest ih =>
      intro i
      have h := ih (minStep i q)
      refine ⟨?_, ?_, ?_⟩
      · rcases h.1 with he | ⟨p, hp, he⟩
        · rcases min_cases i.x q.x with ⟨hm, _⟩ | ⟨hm, _⟩
          · left; rw [List.foldl_cons, he]; exact hm
          · right; exact ⟨q, List.mem_cons_self q rest, by rw [List.foldl_cons, he]; exact hm⟩
        · right; exact ⟨p, List.mem_cons_of_mem q hp, by rw [List.foldl_cons]; exact he⟩
      · rcases h.2.1 with he | ⟨p, hp, he⟩
        · rcases min_cases i.y q.y with ⟨hm, _⟩ | ⟨hm, _⟩
          · left; rw [List.foldl_cons, he]; exact hm
          · right; exact ⟨q, List.mem_cons_self q rest, by rw [List.foldl_cons, he]; exact hm⟩
        · right; exact ⟨p, List.mem_cons_of_mem q hp, by rw [List.foldl_cons]; exact he⟩
      · rcases h.2.2 with he | ⟨p, hp, he⟩
        · rcases min_cases i.z q.z with ⟨hm, _⟩ | ⟨hm, _⟩
          · left; rw [List.foldl_cons, he]; exact hm
          · right; exact ⟨q, List.mem_cons_self q rest, by rw [List.foldl_cons, he]; exact hm⟩
        · right; exact ⟨p, List.mem_cons_of_mem q hp, by rw [List.foldl_cons]; exact he⟩

theorem foldl_maxStep_attained (l : List Vec3) :
    ∀ i : Vec3,
      ((l.foldl maxStep i).x = i.x ∨ ∃ p ∈ l, (l.foldl maxStep i).x = p.x) ∧
      ((l.foldl maxStep i).y = i.y ∨ ∃ p ∈ l, (l.foldl maxStep i).y = p.y) ∧
      ((l.foldl maxStep i).z = i.z ∨ ∃ p ∈ l, (l.foldl maxStep i).z = p.z) := by
  induction l with
  | nil => intro i; simp
  | cons q rest ih =>
      intro i
      have h := ih (maxStep i q)
      refine ⟨?_, ?_, ?_⟩
      · rcases h.1 with he | ⟨p, hp, he⟩
        · rcases max_cases i.x q.x with ⟨hm, _⟩ | ⟨hm, _⟩
          · left; rw [List.foldl_cons, he]; exact hm
          · right; exact ⟨q, List.mem_cons_self q rest, by rw [List.foldl_cons, he]; exact hm⟩
        · right; exact ⟨p, List.mem_cons_of_mem q hp, by rw [List.foldl_cons]; exact he⟩
      · rcases h.2.1 with he | ⟨p, hp, he⟩
        · rcases max_cases i.y q.y with ⟨hm, _⟩ | ⟨hm, _⟩
          · left; rw [List.foldl_cons, he]; exact hm
          · right; exact ⟨q, List.mem_cons_self q rest, by rw [List.foldl_cons, he]; exact hm⟩
        · right; exact ⟨p, List.mem_cons_of_mem q hp, by rw [List.foldl_cons]; exact he⟩
      · rcases h.2.2 with he | ⟨p, hp, he⟩
        · rcases max_cases i.z q.z with ⟨hm, _⟩ | ⟨hm, _⟩
          · left; rw [List.foldl_cons, he]; exact hm
          · right; exact ⟨q, List.mem_cons_self q rest, by rw [List.foldl_cons, he]; exact hm⟩
        · right; exact ⟨p, List.mem_cons_of_mem q hp, by rw [List.foldl_cons]; exact he⟩

/-- Every coordinate of `p` lies in the representable double range
`[-DBL_MAX, DBL_MAX]` (true of every finite float position). -/
def coordsInDoubleRange (p : Vec3) : Prop :=
  (-dblMax ≤ p.x ∧ p.x ≤ dblMax) ∧ (-dblMax ≤ p.y ∧ p.y ≤ dblMax) ∧
  (-dblMax ≤ p.z ∧ p.z ≤ dblMax)

/-- The pair `(lo, hi)` is the true per-axis extrema of `positions`:
each bound is attained by some position and bounds every position. -/
def isTightAABB (positions : List Vec3) (box : Vec3 × Vec3) : Prop :=
  (∃ p ∈ positions, box.1.x = p.x) ∧ (∀ p ∈ positions, box.1.x ≤ p.x) ∧
  (∃ p ∈ positions, box.1.y = p.y) ∧ (∀ p ∈ positions, box.1.y ≤ p.y) ∧
  (∃ p ∈ positions, box.1.z = p.z) ∧ (∀ p ∈ positions, box.1.z ≤ p.z) ∧
  (∃ p ∈ positions, box.2.x = p.x) ∧ (∀ p ∈ positions, p.x ≤ box.2.x) ∧
  (∃ p ∈ positions, box.2.y = p.y) ∧ (∀ p ∈ positions, p.y ≤ box.2.y) ∧
  (∃ p ∈ positions, box.2.z = p.z) ∧ (∀ p ∈ positions, p.z ≤ box.2.z)

/-- C5: when the declared accessor `min` and `max` are both 3-component the
AABB is exactly the declared box, regardless of the actual positions;
otherwise it is the true per-axis extrema of all positions (for a nonempty
accessor of finite-double positions). -/
theorem aabb_from_declared_or_computed
    (declMin declMax : List ℚ) (positions : List Vec3)
    (hne : positions ≠ [])
    (hb : ∀ p ∈ positions, coordsInDoubleRange p) :
    (declMin.length = 3 ∧ declMax.length = 3 →
      computeAABB declMin declMax positions
        = (⟨declMin.getD 0 0, declMin.getD 1 0, declMin.getD 2 0⟩,
           ⟨declMax.getD 0 0, declMax.getD 1 0, declMax.getD 2 0⟩)) ∧
    (¬(declMin.length = 3 ∧ declMax.length = 3) →
      isTightAABB positions (computeAABB declMin declMax positions)) := by
  constructor
  · intro hdecl
    have hcond : ¬(declMin.length ≠ 3 ∨ declMax.length ≠ 3) := by
      push_neg; exact hdecl
    simp only [computeAABB, if_neg hcond]
  · intro hdecl
    have hcond : declMin.length ≠ 3 ∨ declMax.length ≠ 3 := by
      by_contra hc; push_neg at hc; exact hdecl hc
    simp only [computeAABB, if_pos hcond]
    obtain ⟨p0, hp0⟩ := List.exists_mem_of_ne_nil positions hne
    have hminle := foldl_minStep_le_mem positions ⟨dblMax, dblMax, dblMax⟩
    have hmaxle := foldl_maxStep_mem_le positions ⟨-dblMax, -dblMax, -dblMax⟩
    have hminat := foldl_minStep_attained positions ⟨dblMax, dblMax, dblMax⟩
    have hmaxat := foldl_maxStep_attained positions ⟨-dblMax, -dblMax, -dblMax⟩
    have hminit := foldl_minStep_le_init positions ⟨dblMax, dblMax, dblMax⟩
    have hmaxit := foldl_maxStep_init_le positions ⟨-dblMax, -dblMax, -dblMax⟩
    refine ⟨?_, fun p hp => (hminle p hp).1, ?_, fun p hp => (hminle p hp).2.1,
      ?_, fun p hp => (hminle p hp).2.2,
      ?_, fun p hp => (hmaxle p hp).1, ?_, fun p hp => (hmaxle p hp).2.1,
      ?_, fun p hp => (hmaxle p hp).2.2⟩
    · rcases hminat.1 with he | hex
      · refine ⟨p0, hp0, le_antisymm ((hminle p0 hp0).1) ?_⟩
        rw [he]; exact ((hb p0 hp0).1).2
      · exact hex
    · rcases hminat.2.1 with he | hex
      · refine ⟨p0, hp0, le_antisymm ((hminle p0 hp0).2.1) ?_⟩
        rw [he]; exact ((hb p0 hp0).2.1).2
      · exact hex
    · rcases hminat.2.2 with he | hex
      · refine ⟨p0, hp0, le_antisymm ((hminle p0 hp0).2.2) ?_⟩
        rw [he]; exact ((hb p0 hp0).2.2).2
      · exact hex
    · rcases hmaxat.1 with he | hex
      · refine ⟨p0, hp0, le_antisymm ?_ ((hmaxle p0 hp0).1)⟩
        rw [he]; exact ((hb p0 hp0).1).1
      · exact hex
    · rcases hmaxat.2.1 with he | hex
      · refine ⟨p0, hp0, le_antisymm ?_ ((hmaxle p0 hp0).2.1)⟩
        rw [he]; exact ((hb p0 hp0).2.1).1
      · exact hex
    · rcases hmaxat.2.2 with he | hex
      · refine ⟨p0, hp0, le_antisymm ?_ ((hmaxle p0 hp0).2.2)⟩
        rw [he]; exact ((hb p0 hp0).2.2).1
      · exact hex

theorem aabb_from_declared_or_computed_witness :
    computeAABB [-1, -1, -1] [1, 1, 1] [⟨7, 8, 9⟩]
      = (⟨-1, -1, -1⟩, ⟨1, 1, 1⟩) :=
  (aabb_from_declared_or_computed [-1, -1, -1] [1, 1, 1] [⟨7, 8, 9⟩]
      (by decide)
      (by
        intro p hp
        simp only [List.mem_singleton] at hp
        subst hp
        constructor
        · constructor <;> · rw [dblMax]; norm_num
        constructor
        · constructor <;> · rw [dblMax]; norm_num
        · constructor <;> · rw [dblMax]; norm_num)).1
    ⟨by decide, by decide⟩

/-! ### Texture-coordinate consolidation (`updateTextureCoordinates`) -/

/-- Key lookup in the accessor-id → channel map (`textureCoordinateMap.find`;
the `std::unordered_map` is modelled as an insertion-ordered association list
— the code only queries by key and inserts fresh keys). -/
def lookupTC : List (Nat × Nat) → Nat → Option Nat
  | [], _ => none
  | e :: rest, k => if e.1 = k then some e.2 else lookupTC rest k

/-- The UV-copy loops of `updateTextureCoordinates`: with duplication, vertex
`i` takes the UV of accessor element `indices[i]` (zero when out of range);
without, vertex `i` takes accessor element `i` (zero when out of range).
A vertex is its array of UV slots. -/
def writeUVs (dup : Bool) (ch : Nat) (uvData : List (ℚ × ℚ))
    (vertices : List (List (ℚ × ℚ))) (indices : List Nat) :
    List (List (ℚ × ℚ)) :=
  if dup then
    vertices.mapIdx (fun i uvs =>
      if i < indices.length then
        uvs.set ch (if indices.getD i 0 < uvData.length
                    then uvData.getD (indices.getD i 0) (0, 0) else (0, 0))
      else uvs)
  else
    vertices.mapIdx (fun i uvs =>
      uvs.set ch (if i < uvData.length then uvData.getD i (0, 0) else (0, 0)))

/-- Result of one `updateTextureCoordinates` call: the returned channel
index, the updated consolidation map, and the updated vertices. -/
structure UTCResult where
  ret : Nat
  map : List (Nat × Nat)
  verts : List (List (ℚ × ℚ))
deriving DecidableEq, Repr

/-- `updateTextureCoordinates`: absent attribute returns 0 untouched; an
already-mapped accessor id returns its stored channel; otherwise the id is
assigned the next unused channel (`textureCoordinateMap.size()`) *before*
the accessor view is validated — an invalid view then returns 0 with no UV
writes, but the map entry stays. -/
def updateTextureCoordinates (attrAccessor : Option Nat)
    (accessorValid : Bool) (uvData : List (ℚ × ℚ)) (dup : Bool)
    (vertices : List (List (ℚ × ℚ))) (indices : List Nat)
    (tcMap : List (Nat × Nat)) : UTCResult :=
  match attrAccessor with
  | none => ⟨0, tcMap, vertices⟩
  | some uvAccessorID =>
    match lookupTC tcMap uvAccessorID with
    | some ch => ⟨ch, tcMap, vertices⟩
    | none =>
      if accessorValid then
        ⟨tcMap.length, tcMap ++ [(uvAccessorID, tcMap.length)],
         writeUVs dup tcMap.length uvData vertices indices⟩
      else
        ⟨0, tcMap ++ [(uvAccessorID, tcMap.length)], vertices⟩

theorem lookupTC_append_self (m : List (Nat × Nat)) (k v : Nat)
    (h : lookupTC m k = none) : lookupTC (m ++ [(k, v)]) k = some v := by
  induction m with
  | nil => simp [lookupTC]
  | cons e rest ih =>
      by_cases he : e.1 = k
      · simp [lookupTC, he] at h
      · simp only [lookupTC, he, if_false, List.cons_append,
          if_neg he] at h ⊢
        exact ih h

theorem lookupTC_mono (m l : List (Nat × Nat)) (k v : Nat)
    (h : lookupTC m k = some v) : lookupTC (m ++ l) k = some v := by
  induction m with
  | nil => simp [lookupTC] at h
  | cons e rest ih =>
      by_cases he : e.1 = k
      · simp only [lookupTC, if_pos he] at h
        simp only [lookupTC, List.cons_append, if_pos he]
        exact h
      · simp only [lookupTC, if_neg he] at h
        simp only [lookupTC, List.cons_append, if_neg he]
        exact ih h

/-- C6 counterexample: consolidating an accessor id whose view is invalid,
into a map that is already nonempty, returns 0 the first time but the stored
channel 1 the second time — consolidation as claimed (same channel both
times, unconditionally) is false. -/
theorem consolidation_not_idempotent_on_invalid :
    (updateTextureCoordinates (some 7) false [] true [] [] [(5, 0)]).ret = 0 ∧
    (updateTextureCoordinates (some 7) false [] true [] []
      (updateTextureCoordinates (some 7) false [] true [] []
        [(5, 0)]).map).ret = 1 := by
  decide

/-- C6 (amended): within one primitive build, consolidating the same UV
accessor id a second time returns the same channel index as the first
consolidation *provided the accessor view is valid* (an invalid view returns
0 while recording a possibly different channel); the accessor-id → channel
map is insert-only — an entry once inserted is never re-ordered or
changed. -/
theorem consolidation_idempotent_when_valid
    (uvAccessorID : Nat) (uvData : List (ℚ × ℚ)) (dup : Bool)
    (vertices : List (List (ℚ × ℚ))) (indices : List Nat)
    (tcMap : List (Nat × Nat)) :
    (updateTextureCoordinates (some uvAccessorID) true uvData dup
        (updateTextureCoordinates (some uvAccessorID) true uvData dup
          vertices indices tcMap).verts indices
        (updateTextureCoordinates (some uvAccessorID) true uvData dup
          vertices indices tcMap).map).ret
      = (updateTextureCoordinates (some uvAccessorID) true uvData dup
          vertices indices tcMap).ret ∧
    (∀ k v, lookupTC tcMap k = some v →
      lookupTC (updateTextureCoordinates (some uvAccessorID) true uvData dup
        vertices indices tcMap).map k = some v) := by
  cases hl : lookupTC tcMap uvAccessorID with
  | some ch =>
      constructor
      · simp [updateTextureCoordinates, hl]
      · intro k v hkv
        simpa [updateTextureCoordinates, hl] using hkv
  | none =>
      constructor
      · have hfound := lookupTC_append_self tcMap uvAccessorID tcMap.length hl
        simp [updateTextureCoordinates, hl, hfound]
      · intro k v hkv
        simp only [updateTextureCoordinates, hl, if_pos rfl]
        exact lookupTC_mono tcMap _ k v hkv

theorem consolidation_idempotent_when_valid_witness :
    (updateTextureCoordinates (some 4) true [] false
        (updateTextureCoordinates (some 4) true [] false [] [] []).verts []
        (updateTextureCoordinates (some 4) true [] false [] [] []).map).ret
      = (updateTextureCoordinates (some 4) true [] false [] [] []).ret :=
  (consolidation_idempotent_when_valid 4 [] false [] [] []).1

/-- C10 counterexample: when the invalid UV accessor is the *first* one
consolidated (empty map), the channel it occupies is 0, which does not
differ from the 0 reported to the material — the claim's "occupies a channel
whose index differs from the 0 reported" fails there. -/
theorem invalid_uv_first_channel_is_zero :
    (updateTextureCoordinates (some 3) false [] true [] [] []).ret = 0 ∧
    (updateTextureCoordinates (some 3) false [] true [] [] []).map
      = [(3, 0)] := by
  decide

/-- C10 (amended): an unmapped UV attribute whose accessor view is invalid
is still assigned the next unused channel (the map grows by exactly that
entry, before validity is checked), the call reports texture-coordinate
index 0, and no UV value is written to any vertex; whenever some channel was
already assigned, the occupied channel index differs from the reported 0. -/
theorem invalid_uv_occupies_channel
    (uvAccessorID : Nat) (uvData : List (ℚ × ℚ)) (dup : Bool)
    (vertices : List (List (ℚ × ℚ))) (indices : List Nat)
    (tcMap : List (Nat × Nat))
    (hnew : lookupTC tcMap uvAccessorID = none)
    (hne : tcMap ≠ []) :
    (updateTextureCoordinates (some uvAccessorID) false uvData dup vertices
        indices tcMap).map = tcMap ++ [(uvAccessorID, tcMap.length)] ∧
    (updateTextureCoordinates (some uvAccessorID) false uvData dup vertices
        indices tcMap).ret = 0 ∧
    (updateTextureCoordinates (some uvAccessorID) false uvData dup vertices
        indices tcMap).verts = vertices ∧
    tcMap.length ≠ 0 := by
  refine ⟨?_, ?_, ?_, ?_⟩
  · simp [updateTextureCoordinates, hnew]
  · simp [updateTextureCoordinates, hnew]
  · simp [updateTextureCoordinates, hnew]
  · simpa using List.length_pos.mpr hne |>.ne'

theorem invalid_uv_occupies_channel_witness :
    (updateTextureCoordinates (some 7) false [] true [] [] [(5, 0)]).map
      = [(5, 0), (7, 1)] :=
  (invalid_uv_occupies_channel 7 [] true [] [] [(5, 0)]
    (by decide) (by decide)).1

/-! ### Vertex-color conversion (`ColorVisitor`) -/

/-- One channel of a source color element: the component types
`convertElement` accepts (float, uint8, uint16); everything else only has
the failing generic overload. Floats are modelled as rationals. -/
inductive ColorVal where
  | f (v : ℚ)
  | u8 (v : Nat)
  | u16 (v : Nat)
  | unsupported
deriving DecidableEq, Repr

/-- `ColorVisitor::convertElement`: float scaled by 255 and cast to a byte
(C++ `uint8_t(value * 255.0f)`, truncation toward zero — equal to the floor
for the nonnegative in-range values of a glTF color), uint16 divided by 256,
uint8 passed through, anything else fails. -/
def convertElement : ColorVal → Option Nat
  | .f v => some (⌊v * 255⌋.toNat)
  | .u8 v => some v
  | .u16 v => some (v / 256)
  | .unsupported => none

/-- One element of the COLOR_0 accessor: a VEC3 or VEC4 of components, or
any other element shape, which only the failing generic `convertColor`
overload accepts. -/
inductive ColorElement where
  | vec3 (c0 c1 c2 : ColorVal)
  | vec4 (c0 c1 c2 c3 : ColorVal)
  | other
deriving DecidableEq, Repr

/-- An 8-bit-per-channel `FColor`. -/
structure FColorQ where
  r : Nat
  g : Nat
  b : Nat
  a : Nat
deriving DecidableEq, Repr

/-- `ColorVisitor::convertColor`: VEC3 gets opaque alpha 255, VEC4 converts
all four channels, any other shape fails. -/
def convertColor : ColorElement → Option FColorQ
  | .vec3 c0 c1 c2 =>
    match convertElement c0, convertElement c1, convertElement c2 with
    | some r, some g, some b => some ⟨r, g, b, 255⟩
    | _, _, _ => none
  | .vec4 c0 c1 c2 c3 =>
    match convertElement c0, convertElement c1, convertElement c2,
          convertElement c3 with
    | some r, some g, some b, some a => some ⟨r, g, b, a⟩
    | _, _, _, _ => none
  | .other => none

/-- The `ColorVisitor` copy loop over the walked positions (the index buffer
with duplication, `0..vertexCount-1` without): out-of-range or unconvertible
elements abort the whole walk with failure (`success = false`). -/
def colorConvertAll (colorData : List ColorElement) :
    List Nat → Option (List FColorQ)
  | [] => some []
  | j :: rest =>
    if j < colorData.length then
      match convertColor (colorData.getD j .other) with
      | some c =>
        match colorConvertAll colorData rest with
        | some cs => some (c :: cs)
        | none => none
      | none => none
    else none

/-- The primitive-wide `hasVertexColors` flag: the accessor view must be
valid and every walked element must convert; on any failure vertex colors
are disabled for the whole primitive (the color vertex buffer is only
initialized when this flag is true). -/
def hasVertexColors (accessorValid dup : Bool) (colorData : List ColorElement)
    (indices : List Nat) (vertexCount : Nat) : Bool :=
  accessorValid &&
    (colorConvertAll colorData
      (if dup then indices else List.range vertexCount)).isSome

theorem colorConvertAll_isSome_iff (colorData : List ColorElement)
    (l : List Nat) :
    (colorConvertAll colorData l).isSome = true ↔
      ∀ j ∈ l, j < colorData.length ∧
        (convertColor (colorData.getD j .other)).isSome = true := by
  induction l with
  | nil => simp [colorConvertAll]
  | cons j rest ih =>
      constructor
      · intro h
        by_cases hj : j < colorData.length
        · cases hc : convertColor (colorData.getD j .other) with
          | none =>
              simp only [colorConvertAll, if_pos hj, hc] at h
              exact absurd h (by simp)
          | some c =>
              cases hrest : colorConvertAll colorData rest with
              | none =>
                  simp only [colorConvertAll, if_pos hj, hc, hrest] at h
                  exact absurd h (by simp)
              | some cs =>
                  intro j' hj'
                  rcases List.mem_cons.mp hj' with rfl | hmem
                  · exact ⟨hj, by rw [hc]; rfl⟩
                  · exact (ih.mp (by simp [hrest])) j' hmem
        · simp only [colorConvertAll, if_neg hj] at h
          exact absurd h (by simp)
      · intro h
        have hj := (h j (List.mem_cons_self _ _)).1
        have hcs := (h j (List.mem_cons_self _ _)).2
        have hrest := ih.mpr (fun j' hm => h j' (List.mem_cons_of_mem _ hm))
        cases hc : convertColor (colorData.getD j .other) with
        | none => rw [hc] at hcs; exact absurd hcs (by simp)
        | some c =>
            cases hr : colorConvertAll colorData rest with
            | none => rw [hr] at hrest; exact absurd hrest (by simp)
            | some cs =>
                simp only [colorConvertAll, if_pos hj, hc, hr]
                rfl

/-- C7: per-channel conversion is float `uint8(v*255)`, uint16 `/256`,
uint8 pass-through; a 3-component element gets opaque alpha 255; the spec's
end-to-end examples hold; and the per-primitive flag is true exactly when
the view is valid and *every* walked element is in range and convertible —
any other element shape disables vertex colors for the whole primitive,
never per vertex. -/
theorem vertex_color_conversion
    (dup accessorValid : Bool) (colorData : List ColorElement)
    (indices : List Nat) (vertexCount : Nat) (v : ℚ) (w : Nat) :
    convertElement (.f v) = some (⌊v * 255⌋.toNat) ∧
    convertElement (.u16 w) = some (w / 256) ∧
    convertElement (.u8 w) = some w ∧
    convertColor (.vec4 (.u8 200) (.u8 100) (.u8 50) (.u8 255))
      = some ⟨200, 100, 50, 255⟩ ∧
    convertColor (.vec3 (.f 1) (.f (1 / 2)) (.f 0))
      = some ⟨255, 127, 0, 255⟩ ∧
    (∀ c0 c1 c2 col, convertColor (.vec3 c0 c1 c2) = some col → col.a = 255) ∧
    convertColor .other = none ∧
    (hasVertexColors accessorValid dup colorData indices vertexCount = true ↔
      accessorValid = true ∧
      ∀ j ∈ (if dup then indices else List.range vertexCount),
        j < colorData.length ∧
          (convertColor (colorData.getD j .other)).isSome = true) := by
  have ef1 : convertElement (.f 1) = some 255 := by
    have hf : (⌊(1 : ℚ) * 255⌋ : ℤ) = 255 := by norm_num
    simp only [convertElement, hf]
    rfl
  have ef2 : convertElement (.f (1 / 2)) = some 127 := by
    have hf : (⌊(1 / 2 : ℚ) * 255⌋ : ℤ) = 127 := by
      rw [Int.floor_eq_iff]
      norm_num
    simp only [convertElement, hf]
    rfl
  have ef3 : convertElement (.f 0) = some 0 := by
    have hf : (⌊(0 : ℚ) * 255⌋ : ℤ) = 0 := by norm_num
    simp only [convertElement, hf]
    rfl
  refine ⟨rfl, rfl, rfl, by decide, ?_, ?_, rfl, ?_⟩
  · simp only [convertColor, ef1, ef2, ef3]
  · intro c0 c1 c2 col h
    cases hc0 : convertElement c0 <;> cases hc1 : convertElement c1 <;>
      cases hc2 : convertElement c2 <;>
      simp [convertColor, hc0, hc1, hc2] at h
    rw [← h]
  · simp only [hasVertexColors, Bool.and_eq_true,
      colorConvertAll_isSome_iff]

theorem vertex_color_conversion_witness :
    hasVertexColors true false
      [.vec4 (.u8 1) (.u8 2) (.u8 3) (.u8 4)] [] 1 = true :=
  (vertex_color_conversion false true
      [.vec4 (.u8 1) (.u8 2) (.u8 3) (.u8 4)] [] 1 0 0).2.2.2.2.2.2.2.mpr
    ⟨rfl, by decide⟩

/-! ### Tangent requirement policy -/

/-- A glTF texture: its `source` image index (a C++ `int`, default `-1`). -/
structure GltfTexture where
  source : Int
deriving DecidableEq, Repr

/-- `Model::getSafe`: a vector element by signed index, null unless
`0 ≤ i < size`. -/
def getSafe {α : Type} (l : List α) (i : Int) : Option α :=
  if 0 ≤ i ∧ i < (l.length : Int) then l.get? i.toNat else none

/-- `hasNormalMap` of `loadPrimitive`: the material has a normal texture
whose texture index resolves to a texture whose `source` resolves to an
image. -/
def hasNormalMapResolved (normalTextureIndex : Option Int)
    (textures : List GltfTexture) (images : List Unit) : Bool :=
  match normalTextureIndex with
  | none => false
  | some ix =>
    match getSafe textures ix with
    | none => false
    | some t => (getSafe images t.source).isSome

/-- The final `needsTangents`, after `applyWaterMask`: forced to true when
the water effect is active (`onlyWater || waterMaskTexture`), otherwise the
initial `hasNormalMap || alwaysIncludeTangents`. -/
def needsTangentsFinal (hasNormalMap always onlyWater waterMaskTexture : Bool) :
    Bool :=
  if onlyWater || waterMaskTexture then true else hasNormalMap || always

/-- The tangent-space generation pass (`computeTangentSpace`, mikktspace)
runs iff `needsTangents && !hasTangents`. -/
def runsTangentGeneration (needsTangents hasTangents : Bool) : Bool :=
  needsTangents && !hasTangents

/-- C8: tangents are required iff the normal-map texture resolves to a valid
texture and image, or the always-generate flag is set, or the water-mask
effect is active; when required without a valid TANGENT accessor the
generation pass runs — and it runs over duplicated vertices, since the same
condition forces `duplicateVertices`. -/
theorem tangent_requirement_policy
    (normalTextureIndex : Option Int) (textures : List GltfTexture)
    (images : List Unit) (always onlyWater waterMaskTexture
     hasTangents hasNormals : Bool) :
    (needsTangentsFinal (hasNormalMapResolved normalTextureIndex textures images)
        always onlyWater waterMaskTexture = true ↔
      hasNormalMapResolved normalTextureIndex textures images = true ∨
      always = true ∨ onlyWater = true ∨ waterMaskTexture = true) ∧
    (hasNormalMapResolved normalTextureIndex textures images = true ↔
      ∃ ix t, normalTextureIndex = some ix ∧ getSafe textures ix = some t ∧
        (getSafe images t.source).isSome = true) ∧
    (runsTangentGeneration
        (needsTangentsFinal (hasNormalMapResolved normalTextureIndex textures images)
          always onlyWater waterMaskTexture) hasTangents = true ↔
      needsTangentsFinal (hasNormalMapResolved normalTextureIndex textures images)
          always onlyWater waterMaskTexture = true ∧ hasTangents = false) ∧
    (runsTangentGeneration
        (needsTangentsFinal (hasNormalMapResolved normalTextureIndex textures images)
          always onlyWater waterMaskTexture) hasTangents = true →
      duplicateVertices hasNormals
        (needsTangentsFinal (hasNormalMapResolved normalTextureIndex textures images)
          always onlyWater waterMaskTexture) hasTangents = true) := by
  refine ⟨?_, ?_, ?_, ?_⟩
  · cases h : hasNormalMapResolved normalTextureIndex textures images <;>
      cases always <;> cases onlyWater <;> cases waterMaskTexture <;>
      simp [needsTangentsFinal]
  · constructor
    · intro h
      cases hni : normalTextureIndex with
      | none => rw [hni] at h; exact absurd h (by simp [hasNormalMapResolved])
      | some ix =>
          cases hts : getSafe textures ix with
          | none =>
              rw [hni] at h
              simp only [hasNormalMapResolved, hts] at h
              exact absurd h (by simp)
          | some t =>
              refine ⟨ix, t, rfl, hts, ?_⟩
              rw [hni] at h
              simpa only [hasNormalMapResolved, hts] using h
    · rintro ⟨ix, t, hni, hts, him⟩
      rw [hni]
      simp only [hasNormalMapResolved, hts]
      exact him
  · cases hn : needsTangentsFinal (hasNormalMapResolved normalTextureIndex textures images)
        always onlyWater waterMaskTexture <;> cases hasTangents <;>
      simp [runsTangentGeneration]
  · intro h
    simp only [runsTangentGeneration, Bool.and_eq_true, Bool.not_eq_true'] at h
    simp [duplicateVertices, h.1, h.2]

theorem tangent_requirement_policy_witness :
    runsTangentGeneration
      (needsTangentsFinal (hasNormalMapResolved (some 0) [⟨0⟩] [()])
        false false false) false = true :=
  (tangent_requirement_policy (some 0) [⟨0⟩] [()]
      false false false false true).2.2.1.mpr ⟨by decide, rfl⟩

end CesiumGltfCpp
